import Mathlib

/-!
Verification development for the SpCon role-mining engine
(`src/spcon/roleminer.py`).  The definitions below are shallow embeddings
of the Python source: the history loader (`lightweightrolemining`), the
chromosome canonicalization of `eval_func`, the degenerate short-circuits
of `miningWithGAWith1DRealChromosome`, the hierarchy reducer
(`buildRoleHierarchy` / `dfsReduceRecursive` / `ReduceMain`) and the policy
deriver (`DeriveRolePermissionPolicy` with its inner
`createInformationSecurityPolicy` and `getWritefuncs`).
Fallible Python code (KeyError, AssertionError, RecursionError) is embedded
with `Except` / `Option` results.
-/

namespace SpCon

/-! ## HistoryLoader (`lightweightrolemining`, roleminer.py lines 108-131) -/

/-- The `success` field of a crawler record may be a JSON boolean or a
number; the source tests `success == 1 or success is True`. -/
inductive SuccessVal where
  | b (x : Bool)
  | n (x : Int)
deriving DecidableEq, Repr

/-- `success == 1 or success is True` from the source.  In Python,
`True == 1` holds, so `b true` passes via either disjunct. -/
def successPasses : SuccessVal → Bool
  | .b x => x
  | .n x => x == 1

/-- One entry of `data.ethereum.smartContractCalls`, after the
`smartContractMethod` name/selector resolution performed on line 114:
`function` is the resolved function identifier string. -/
structure CallRecord where
  caller : String
  function : String
  count : Nat
  success : SuccessVal
deriving DecidableEq, Repr

/-- The record filter on line 117:
`function != "Contract Creation" and (success == 1 or success is True)`. -/
def recordPasses (r : CallRecord) : Bool :=
  r.function ≠ "Contract Creation" && successPasses r.success

/-- The `UF` list built by the loading loop: `(IdCounter(caller), function,
count)` for every passing record.  User ids are represented by their
canonical lowercased caller address (the `_getId` map is a bijection
between dense ids and lowercased addresses). -/
def loadUF (records : List CallRecord) : List (String × String × Nat) :=
  records.filterMap fun r =>
    if recordPasses r then some (r.caller.toLower, r.function, r.count) else none

/-- The frequency matrix built on lines 125-129: starting from zeros, each
`UF` entry adds its count at cell `(user, function)`. -/
def freqMatrix (records : List CallRecord) : String → String → Nat :=
  (loadUF records).foldl
    (fun F t => fun u f => if u = t.1 ∧ f = t.2.1 then F u f + t.2.2 else F u f)
    (fun _ _ => 0)

/-- `permissionMatrix = freqMatrix.astype(bool).astype(int)` (line 131):
a cell is permitted iff its frequency is nonzero. -/
def permissionMatrix (records : List CallRecord) (u f : String) : Bool :=
  freqMatrix records u f ≠ 0

/-! ## Chromosome canonicalization (`eval_func`, roleminer.py lines 442-451)
and decoding (`translateChromosome2Roles`, lines 336-345) -/

/-- `role_ids = sorted(list(set(new_chromosome)))` from `eval_func`: the
ascending list of distinct gene values, realized as the ascending scan of
`0 .. max` keeping the values that occur in the chromosome. -/
def roleIds (c : List ℕ) : List ℕ :=
  (List.range (c.foldr max 0 + 1)).filter fun v => v ∈ c

/-- `new_chromosome = [role_ids.index(v) for v in new_chromosome]`:
each gene is replaced by the rank of its value among the sorted distinct
values.  This is the canonical form handed to `cached_eval_func`. -/
def canonChromosome (c : List ℕ) : List ℕ :=
  c.map fun v => (roleIds c).indexOf v

/-- Insertion order of the keys of the `mergeGroups` dict in
`translateChromosome2Roles`: the distinct gene values in order of first
occurrence. -/
def firstOccValues : List ℕ → List ℕ
  | [] => []
  | v :: vs => v :: (firstOccValues vs).filter (· ≠ v)

/-- `np.where(np.array(new_chromosome) == val)[0]`: the ascending list of
gene positions holding value `v`. -/
def groupIndices (c : List ℕ) (v : ℕ) : List ℕ :=
  (List.range c.length).filter fun i => c.getD i 0 = v

/-- `translateChromosome2Roles` (lines 336-345), at the level of basic-role
index groups: one group per distinct gene value, groups ordered by first
occurrence, each group the ascending positions sharing that value. -/
def translateChromosome2Roles (c : List ℕ) : List (List ℕ) :=
  (firstOccValues c).map (groupIndices c)

/-! ## Degenerate short-circuits of `miningWithGAWith1DRealChromosome`
(roleminer.py lines 312-320 and 476-477) -/

/-- A mined role: a user set paired with a function set (`frozenset`
pairs in the source). -/
abbrev Role := Finset String × Finset String

/-- Result of `miningWithGAWith1DRealChromosome` up to the start of the
genetic search: either an explicit role list (the degenerate branches) or
the marker that control reaches the pyevolve run. -/
inductive MiningOutcome where
  | roles (rs : List (List ℕ × Finset String))
  | ga
deriving DecidableEq

/-- Shallow embedding of the control flow of
`miningWithGAWith1DRealChromosome` before the genetic algorithm runs:
`self.U < 1` returns no roles, `self.U == 1` returns the single role
`([0], set(self.permissions))`, and otherwise
`assert n > 1` fires on `n = len(trainBasicRoles)` before any evolution. -/
def miningWithGAWith1DRealChromosome (U : ℕ) (permissions : Finset String)
    (trainBasicRoles : List Role) : Except String MiningOutcome :=
  if U < 1 then .ok (.roles [])
  else if U = 1 then .ok (.roles [([0], permissions)])
  else if trainBasicRoles.length > 1 then .ok .ga
  else .error "the number of basic roles must be greater than one"

/-- The set of users of the loading phase: the distinct lowercased callers
of passing records (the keys of `userMap`). -/
def loadedUsers (records : List CallRecord) : Finset String :=
  ((loadUF records).map (·.1)).foldr insert ∅

/-- The set of functions gathered on line 118 (`functions.add(function)`). -/
def loadedFunctions (records : List CallRecord) : Finset String :=
  ((loadUF records).map (·.2.1)).foldr insert ∅

/-! ## Policy deriver (`DeriveRolePermissionPolicy`, roleminer.py
lines 539-607) -/

/-- One of the three static read/write summaries (`reads`, `reads2`,
`writes`): a Python dict from function name to a set of state-variable
names, embedded as an explicit finite domain plus a value function. -/
structure RWMap where
  dom : Finset String
  val : String → Finset String

/-- A security policy tuple
`(role, data, priviledge_funcs)` as added to `securityPolicies`. -/
abbrev Policy := Role × Finset String × Finset String

instance {ε α : Type} [DecidableEq ε] [DecidableEq α] :
    DecidableEq (Except ε α) := fun a b =>
  match a, b with
  | .ok x, .ok y =>
    if h : x = y then isTrue (by rw [h])
    else isFalse (by intro hc; cases hc; exact h rfl)
  | .error e, .error e' =>
    if h : e = e' then isTrue (by rw [h])
    else isFalse (by intro hc; cases hc; exact h rfl)
  | .ok _, .error _ => isFalse (by intro hc; cases hc)
  | .error _, .ok _ => isFalse (by intro hc; cases hc)

/-- `getWritefuncs` (lines 541-548): iterate every function of the `writes`
dict, keep those whose unconditional write set `writes[func] - reads2[func]`
meets `datas`, and intersect with the role's function set.  Accessing
`reads2[func]` for a function outside `reads2` raises `KeyError`. -/
def getWritefuncs (reads2 writes : RWMap) (role : Role) (datas : Finset String) :
    Except String (Finset String) :=
  if (writes.dom.filter fun f => f ∉ reads2.dom).Nonempty then
    .error "KeyError: reads2"
  else
    .ok ((writes.dom.filter fun f =>
      ((writes.val f \ reads2.val f) ∩ datas).Nonempty) ∩ role.2)

/-- The `role_reads` union of line 561: functions of the role that are
missing from the `reads` dict are skipped by the comprehension guard. -/
def roleReads (reads : RWMap) (funcs : Finset String) : Finset String :=
  (funcs ∩ reads.dom).biUnion reads.val

/-- The `role_writes` union of line 562:
`writes[func].difference(reads[func]) for func in roles[i][1] if func in writes`.
The guard covers only `writes`; a role function present in `writes` but
absent from `reads` raises `KeyError`. -/
def roleWrites (reads writes : RWMap) (funcs : Finset String) :
    Except String (Finset String) :=
  if (funcs.filter fun f => f ∈ writes.dom ∧ f ∉ reads.dom).Nonempty then
    .error "KeyError: reads"
  else
    .ok ((funcs ∩ writes.dom).biUnion fun f => writes.val f \ reads.val f)

/-- The write-set deduplication pass of lines 569-573: `newDataW` starts as
a deep copy of `dataW` and each position `i` is overwritten with
`dataW[i] - (union(dataW[:i]) - union(dataW[i+1:]))`, every read taken from
the original `dataW` list. -/
def unionList {α : Type} [DecidableEq α] (l : List (Finset α)) : Finset α :=
  l.foldr (· ∪ ·) ∅

/-- The loop of lines 570-571 as a fold over the index range. -/
def dedupPass (dataW : List (Finset String)) : List (Finset String) :=
  (List.range dataW.length).foldl
    (fun acc i =>
      acc.set i ((dataW.getD i ∅) \
        (unionList (dataW.take i) \ unionList (dataW.drop (i + 1)))))
    dataW

/-- The value the double loop of lines 576-583 writes at cell `(i, j)` for
`i < j`.  Note the source's `elif` tests
`set(dataW[i]).issuperset(set(dataW[i]))`, comparing `dataW[i]` with
itself; that conjunct is identically true, leaving only the cardinality
comparison. -/
def latEntryUpper (W : List (Finset String)) (i j : ℕ) : Int :=
  if W.getD i ∅ ⊆ W.getD j ∅ ∧ (W.getD i ∅).card < (W.getD j ∅).card then -1
  else if (W.getD j ∅).card < (W.getD i ∅).card then 1
  else 0

/-- The `securityLattice` matrix: zeros everywhere except the pairs set by
the loop, which always writes opposite values at `(i, j)` and `(j, i)`. -/
def securityLattice (W : List (Finset String)) (i j : ℕ) : Int :=
  if i < j then latEntryUpper W i j
  else if j < i then -latEntryUpper W j i
  else 0

/-- One side of the separation-of-duty emission (lines 599-602): when the
write-set difference is non-empty, one policy tuple for that side,
otherwise nothing. -/
def sepPolicy (reads2 writes : RWMap) (role : Role) (datas : Finset String) :
    Except String (Finset Policy) :=
  if datas.Nonempty then do
    let fns ← getWritefuncs reads2 writes role datas
    return {(role, datas, fns)}
  else pure ∅

/-- The policies the emission loop of lines 586-602 adds for one pair
`i < j`, as a finite set (`securityPolicies` is a Python set). -/
def pairPolicies (reads2 writes : RWMap) (roles : List Role)
    (W : List (Finset String)) (i j : ℕ) : Except String (Finset Policy) :=
  if securityLattice W i j = 1 then do
    let fns ← getWritefuncs reads2 writes (roles.getD i (∅, ∅))
      (W.getD i ∅ \ W.getD j ∅)
    return {(roles.getD i (∅, ∅), W.getD i ∅ \ W.getD j ∅, fns)}
  else if securityLattice W i j = -1 then do
    let fns ← getWritefuncs reads2 writes (roles.getD j (∅, ∅))
      (W.getD j ∅ \ W.getD i ∅)
    return {(roles.getD j (∅, ∅), W.getD j ∅ \ W.getD i ∅, fns)}
  else do
    let s1 ← sepPolicy reads2 writes (roles.getD i (∅, ∅))
      (W.getD i ∅ \ W.getD j ∅)
    let s2 ← sepPolicy reads2 writes (roles.getD j (∅, ∅))
      (W.getD j ∅ \ W.getD i ∅)
    return s1 ∪ s2

/-- The ascending enumeration of the index pairs `i < j` visited by the
emission loop. -/
def pairList (n : ℕ) : List (ℕ × ℕ) :=
  (List.range n).flatMap fun i =>
    ((List.range n).filter fun j => i < j).map fun j => (i, j)

/-- `createInformationSecurityPolicy` (lines 550-604) for non-`None`
summaries: per-role write sets, the deduplication pass, the security
lattice and the pair-wise policy emission, with Python `KeyError`
propagation embedded in `Except`. -/
def createInformationSecurityPolicy (reads reads2 writes : RWMap)
    (mined_roles : List Role) : Except String (Finset Policy) := do
  let dataW ← mined_roles.mapM fun r => roleWrites reads writes r.2
  let W := dedupPass dataW
  let pss ← (pairList mined_roles.length).mapM fun p =>
    pairPolicies reads2 writes mined_roles W p.1 p.2
  return pss.foldl (· ∪ ·) ∅

/-- A concrete static-summary fixture: all three summaries defined on
`{"f","g","h"}`, with empty conditional-read sets. -/
def readsFix : RWMap := ⟨{"f", "g", "h"}, fun _ => ∅⟩

/-- A concrete write-summary fixture: `f` writes `{x}`, `g` writes
`{x, y}`, `h` writes `{x}`. -/
def writesFix : RWMap :=
  ⟨{"f", "g", "h"}, fun s =>
    if s = "f" then {"x"}
    else if s = "g" then {"x", "y"}
    else if s = "h" then {"x"} else ∅⟩

/-- A concrete three-role fixture whose per-role write sets are
`[{x}, {x,y}, {x}]` under `writesFix`. -/
def rolesFix : List Role := [({"a"}, {"f"}), ({"b"}, {"g"}), ({"c"}, {"h"})]

/-! ## Hierarchy reducer (`buildRoleHierarchy`, `dfsReduceRecursive`,
`ReduceMain`, roleminer.py lines 139-221) -/

/-- A lattice concept handed to `ReduceMain`: a user set and a function
set.  Users and functions are indexed by naturals (the source carries
id strings and name strings; only their identity matters here). -/
abbrev BRole := Finset ℕ × Finset ℕ

/-- The mutable state of the reducer: the `roles` list, the set of cells
of `hierarchyMatrix` holding 1, and the `removes` list. -/
structure RState where
  roles : List BRole
  H : Finset (ℕ × ℕ)
  removes : List ℕ
deriving DecidableEq

/-- `buildRoleHierarchy` (lines 140-151): `H[i,j] = 1` iff `i ≠ j` and the
user set of `roles[i]` is a subset of the user set of `roles[j]`. -/
def buildRoleHierarchy (roles : List BRole) : Finset (ℕ × ℕ) :=
  (Finset.range roles.length ×ˢ Finset.range roles.length).filter
    fun p => p.1 ≠ p.2 ∧ (roles.getD p.1 (∅, ∅)).1 ⊆ (roles.getD p.2 (∅, ∅)).1

/-- `hierarchyMatrix[i] = np.zeros(...)`: clear row `i`. -/
def clearRow (i : ℕ) (H : Finset (ℕ × ℕ)) : Finset (ℕ × ℕ) :=
  H.filter fun p => p.1 ≠ i

/-- The sequential trimming loop of lines 162-166 (and 185-189):
`funcSet1 = funcSet1.difference(roles[j][1])` for every `j` with
`H[i,j] = 1`, starting from `roles[i]`'s function set. -/
def trimFuncs (st : RState) (i : ℕ) : Finset ℕ :=
  (List.range st.roles.length).foldl
    (fun s j => if (i, j) ∈ st.H then s \ (st.roles.getD j (∅, ∅)).2 else s)
    (st.roles.getD i (∅, ∅)).2

/-- The common tail of branches 1 and 3 (lines 168-173 and 197-202): mark
`i` for removal when the trimmed set is empty, otherwise store the trimmed
role, then clear row `i`.  `u` is the `userSet1` captured before any child
recursion. -/
def finishNode (st : RState) (i : ℕ) (u : Finset ℕ) (s1 : Finset ℕ) : RState :=
  if s1 = ∅ then { st with removes := st.removes ++ [i], H := clearRow i st.H }
  else { st with roles := st.roles.set i (u, s1), H := clearRow i st.H }

/-- `np.sum(hierarchyMatrix[i])`: how many live parent links row `i`
holds. -/
def parentsCard (st : RState) (i : ℕ) : ℕ :=
  (st.H.filter fun p => p.1 = i).card

/-- `np.sum(hierarchyMatrix[:, i])`: how many live child links column `i`
holds. -/
def childrenCard (st : RState) (i : ℕ) : ℕ :=
  (st.H.filter fun p => p.2 = i).card

/-- The child loop `for j in range(len): if hierarchyMatrix[j, i] == 1:
dfsReduceRecursive(roles, j)` (lines 178-180 and 192-194): the matrix cell
is re-read live at each iteration. -/
def childFold (step : ℕ → RState → Option RState) (i : ℕ)
    (js : List ℕ) (acc : Option RState) : Option RState :=
  js.foldl
    (fun acc j =>
      match acc with
      | none => none
      | some s => if (j, i) ∈ s.H then step j s else some s)
    acc

/-- `dfsReduceRecursive` (lines 154-202) with explicit recursion fuel:
running out of fuel models the unbounded mutual descent that raises
`RecursionError` in the source (the descent on equal user sets never
clears a row, so it cannot terminate).  In the third branch `userSet1` and
`funcSet1` are computed from the state before the child loop runs, exactly
as in the source. -/
def dfsReduceRecursive : ℕ → ℕ → RState → Option RState
  | 0, _, _ => none
  | Nat.succ fuel, i, st =>
    if 0 < parentsCard st i ∧ childrenCard st i = 0 then
      some (finishNode st i (st.roles.getD i (∅, ∅)).1 (trimFuncs st i))
    else if parentsCard st i = 0 ∧ 0 < childrenCard st i then
      childFold (fun j s => dfsReduceRecursive fuel j s) i
        (List.range st.roles.length) (some st)
    else if 0 < parentsCard st i ∧ 0 < childrenCard st i then
      match childFold (fun j s => dfsReduceRecursive fuel j s) i
          (List.range st.roles.length) (some st) with
      | none => none
      | some st2 =>
        some (finishNode st2 i (st.roles.getD i (∅, ∅)).1 (trimFuncs st i))
    else some st

/-- `ReduceMain` (lines 204-221): build the hierarchy, run the reducer on
every index, deduplicate `removes`, and drop the marked indices (popping
the distinct indices in descending order keeps exactly the unmarked
positions).  The per-call fuel `roles.length + 1` covers every terminating
descent: a terminating chain of live child links never repeats an index,
so its depth is at most the number of roles. -/
def ReduceMain (roles : List BRole) : Option (List BRole) := do
  let st0 : RState := ⟨roles, buildRoleHierarchy roles, []⟩
  let stF ← (List.range roles.length).foldl
      (fun acc i => acc.bind (dfsReduceRecursive (roles.length + 1) i)) (some st0)
  return (List.range stF.roles.length).filterMap fun i =>
    if i ∈ stF.removes then none else some (stF.roles.getD i (∅, ∅))

/-- Verification predicate: no live link of `H` starts at row `k` (the row
has been zeroed, or never held a 1). -/
def rowClear (H : Finset (ℕ × ℕ)) (k : ℕ) : Prop :=
  ∀ p ∈ H, p.1 ≠ k

/-- Verification predicate: row `k` of `H` still holds every 1 the initial
hierarchy matrix of `R0` gave it. -/
def rowOrig (R0 : List BRole) (H : Finset (ℕ × ℕ)) (k : ℕ) : Prop :=
  ∀ p ∈ buildRoleHierarchy R0, p.1 = k → p ∈ H

/-- Verification predicate: row `k` of the initial hierarchy matrix of
`R0` is non-zero (concept `k` has at least one parent). -/
def rowNonempty0 (R0 : List BRole) (k : ℕ) : Prop :=
  ∃ p ∈ buildRoleHierarchy R0, p.1 = k

/-- The execution invariant of the reducer relative to the initial role
list `R0`: lengths and user sets are preserved, function sets only
shrink, the matrix only loses 1s and each row is either intact or zeroed,
every zeroed row with original parents is either marked for removal or
holds a non-empty function set disjoint from each original parent's
original function set, parentless concepts are untouched, and the target
of any live link is untouched. -/
structure RInv (R0 : List BRole) (st : RState) : Prop where
  len : st.roles.length = R0.length
  users : ∀ k, (st.roles.getD k (∅, ∅)).1 = (R0.getD k (∅, ∅)).1
  funcs : ∀ k, (st.roles.getD k (∅, ∅)).2 ⊆ (R0.getD k (∅, ∅)).2
  hsub : st.H ⊆ buildRoleHierarchy R0
  rows : ∀ k, rowOrig R0 st.H k ∨ rowClear st.H k
  processed : ∀ k, rowClear st.H k → rowNonempty0 R0 k →
    k ∈ st.removes ∨
      ((st.roles.getD k (∅, ∅)).2 ≠ ∅ ∧
       ∀ j, (k, j) ∈ buildRoleHierarchy R0 →
         Disjoint (st.roles.getD k (∅, ∅)).2 (R0.getD j (∅, ∅)).2)
  untouched : ∀ k, ¬ rowNonempty0 R0 k →
    st.roles.getD k (∅, ∅) = R0.getD k (∅, ∅)
  parentsOrig : ∀ p ∈ st.H,
    st.roles.getD p.2 (∅, ∅) = R0.getD p.2 (∅, ∅)

/-- What one reducer step may do to the state: keep lengths and user
sets, shrink function sets, lose matrix 1s, extend `removes`. -/
structure RStep (st st' : RState) : Prop where
  len : st'.roles.length = st.roles.length
  users : ∀ k, (st'.roles.getD k (∅, ∅)).1 = (st.roles.getD k (∅, ∅)).1
  funcs : ∀ k, (st'.roles.getD k (∅, ∅)).2 ⊆ (st.roles.getD k (∅, ∅)).2
  hsub : st'.H ⊆ st.H
  rem : ∀ x ∈ st.removes, x ∈ st'.removes

/-! ## Theorems -/

/-- The record filter of the claim statements: caller matches after
lowercasing, function matches, the call succeeded and it is not the
contract-creation pseudo entry. -/
theorem freqMatrix_foldl_eq (u f : String) :
    ∀ (l : List (String × String × ℕ)) (F0 : String → String → ℕ),
      (l.foldl
          (fun F t => fun u' f' =>
            if u' = t.1 ∧ f' = t.2.1 then F u' f' + t.2.2 else F u' f') F0) u f =
        F0 u f + ((l.filter fun t => u = t.1 ∧ f = t.2.1).map fun t => t.2.2).sum := by
  intro l
  induction l with
  | nil => intro F0; simp
  | cons t l ih =>
    intro F0
    rw [List.foldl_cons, ih, List.filter_cons]
    by_cases h : u = t.1 ∧ f = t.2.1
    · simp [h]
      omega
    · simp [h]

theorem loadUF_cons (r : CallRecord) (rs : List CallRecord) :
    loadUF (r :: rs) =
      if recordPasses r then (r.caller.toLower, r.function, r.count) :: loadUF rs
      else loadUF rs := by
  by_cases h : recordPasses r <;> simp [loadUF, List.filterMap_cons, h]

/-- C6.  After history loading, `F[u,f]` is the sum of the `count` fields
over records whose lowercased caller is `u`, whose resolved function is
`f`, which succeeded (`success == 1 or success is True`) and which are not
"Contract Creation"; filtered-out records contribute to neither matrix;
and `P[u,f] = (F[u,f] > 0)` cell-wise. -/
theorem historyMatrixSpec (records : List CallRecord) (u f : String) :
    freqMatrix records u f =
      ((records.filter fun r =>
          (r.caller.toLower == u) && (r.function == f) &&
          successPasses r.success && (r.function != "Contract Creation")).map
        (fun r => r.count)).sum ∧
    (permissionMatrix records u f ↔ 0 < freqMatrix records u f) := by
  constructor
  · unfold freqMatrix
    rw [freqMatrix_foldl_eq, Nat.zero_add]
    induction records with
    | nil => rfl
    | cons r rs ih =>
      by_cases hp : recordPasses r
      · have hsp : successPasses r.success = true := by
          have h := hp
          unfold recordPasses at h
          exact (Bool.and_eq_true_iff.mp h).2
        have hcc : (r.function != "Contract Creation") = true := by
          have h := hp
          unfold recordPasses at h
          simpa using (Bool.and_eq_true_iff.mp h).1
        by_cases h1 : u = r.caller.toLower
        · by_cases h2 : f = r.function
          · subst h1; subst h2
            simp [loadUF_cons, hp, List.filter_cons, hsp, hcc]
            simpa using ih
          · have hb : (r.function == f) = false := by
              simp only [beq_eq_false_iff_ne, ne_eq]
              exact fun hh => h2 hh.symm
            subst h1
            simp [loadUF_cons, hp, List.filter_cons, h2, hb]
            simpa using ih
        · have hb : (r.caller.toLower == u) = false := by
            simp only [beq_eq_false_iff_ne, ne_eq]
            exact fun hh => h1 hh.symm
          simp [loadUF_cons, hp, List.filter_cons, h1, hb]
          simpa using ih
      · have hor : successPasses r.success = false ∨
            r.function = "Contract Creation" := by
          have h := hp
          unfold recordPasses at h
          by_cases hC : r.function = "Contract Creation"
          · exact Or.inr hC
          · left
            by_cases hS : successPasses r.success
            · exact absurd (by simp [hC, hS]) h
            · simpa using hS
        rcases hor with h | h
        · simp [loadUF_cons, hp, List.filter_cons, h]
          simpa using ih
        · simp [loadUF_cons, hp, List.filter_cons, h]
          simpa using ih
  · have : permissionMatrix records u f ↔ freqMatrix records u f ≠ 0 := by
      simp [permissionMatrix]
    rw [this]
    omega

theorem foldr_insert_toFinset {α : Type} [DecidableEq α] (l : List α) :
    l.foldr insert ∅ = l.toFinset := by
  induction l with
  | nil => rfl
  | cons a l ih => simp [ih]

theorem le_foldr_max {x : ℕ} : ∀ {l : List ℕ}, x ∈ l → x ≤ l.foldr max 0 := by
  intro l
  induction l with
  | nil => intro h; cases h
  | cons a l ih =>
    intro h
    rcases List.mem_cons.mp h with rfl | h
    · exact le_max_left _ _
    · exact le_trans (ih h) (le_max_right _ _)

theorem foldr_max_le {b : ℕ} : ∀ {l : List ℕ}, (∀ x ∈ l, x ≤ b) →
    l.foldr max 0 ≤ b := by
  intro l
  induction l with
  | nil => intro _; exact Nat.zero_le b
  | cons a l ih =>
    intro h
    exact max_le (h a (List.mem_cons_self a l)) (ih fun x hx => h x (List.mem_cons_of_mem a hx))

theorem mem_roleIds {v : ℕ} {c : List ℕ} : v ∈ roleIds c ↔ v ∈ c := by
  constructor
  · intro h
    have := (List.mem_filter.mp h).2
    exact of_decide_eq_true this
  · intro h
    refine List.mem_filter.mpr ⟨List.mem_range.mpr ?_, by simpa using h⟩
    exact Nat.lt_succ_of_le (le_foldr_max h)

theorem roleIds_nodup (c : List ℕ) : (roleIds c).Nodup :=
  (List.nodup_range _).filter _

theorem indexOf_injOn_mem (l : List ℕ) :
    Set.InjOn (fun v => l.indexOf v) {v | v ∈ l} := by
  intro x hx y hy h
  have h' : l.indexOf x = l.indexOf y := h
  have hxl : l.indexOf x < l.length := List.indexOf_lt_length.mpr hx
  have hyl : l.indexOf y < l.length := List.indexOf_lt_length.mpr hy
  have hfin : (⟨l.indexOf x, hxl⟩ : Fin l.length) = ⟨l.indexOf y, hyl⟩ :=
    Fin.ext h'
  calc x = l.get ⟨l.indexOf x, hxl⟩ := (List.indexOf_get hxl).symm
    _ = l.get ⟨l.indexOf y, hyl⟩ := by rw [hfin]
    _ = y := List.indexOf_get hyl

theorem mem_of_mem_firstOccValues : ∀ {c : List ℕ} {x : ℕ},
    x ∈ firstOccValues c → x ∈ c := by
  intro c
  induction c with
  | nil => intro x h; simp [firstOccValues] at h
  | cons v vs ih =>
    intro x h
    rw [firstOccValues] at h
    rcases List.mem_cons.mp h with h | h
    · simp [h]
    · exact List.mem_cons_of_mem v (ih (List.mem_of_mem_filter h))

theorem firstOccValues_map (σ : ℕ → ℕ) :
    ∀ (c : List ℕ), Set.InjOn σ {v | v ∈ c} →
      firstOccValues (c.map σ) = (firstOccValues c).map σ := by
  intro c
  induction c with
  | nil => intro _; rfl
  | cons v vs ih =>
    intro hσ
    have hvs : Set.InjOn σ {x | x ∈ vs} := by
      intro x hx y hy h
      exact hσ (by simp [Set.mem_setOf_eq.mp hx]) (by simp [Set.mem_setOf_eq.mp hy]) h
    rw [List.map_cons, firstOccValues, firstOccValues, ih hvs, List.filter_map]
    congr 1
    rw [List.filter_congr]
    intro x hx
    have hxv : x ∈ vs := mem_of_mem_firstOccValues hx
    have hmx : x ∈ {w | w ∈ v :: vs} := List.mem_cons_of_mem v hxv
    have hmv : v ∈ {w | w ∈ v :: vs} := List.mem_cons_self v vs
    show decide (σ x ≠ σ v) = decide (x ≠ v)
    rw [decide_eq_decide]
    constructor
    · intro h1 h2
      exact h1 (congrArg σ h2)
    · intro h1 h2
      exact h1 (hσ hmx hmv h2)

theorem groupIndices_map (c : List ℕ) (σ : ℕ → ℕ) (v : ℕ) (hv : v ∈ c)
    (hσ : Set.InjOn σ {x | x ∈ c}) :
    groupIndices (c.map σ) (σ v) = groupIndices c v := by
  unfold groupIndices
  rw [List.length_map]
  apply List.filter_congr
  intro i hi
  have hil : i < c.length := List.mem_range.mp hi
  have h1 : (c.map σ).getD i 0 = σ (c.get ⟨i, hil⟩) := by
    rw [List.getD_eq_getElem _ _ (by simpa using hil)]
    simp [List.get_eq_getElem]
  have h2 : c.getD i 0 = c.get ⟨i, hil⟩ := by
    rw [List.getD_eq_getElem _ _ hil]
    rfl
  have hmi : c.get ⟨i, hil⟩ ∈ {x | x ∈ c} := List.get_mem _ _ _
  have hmv : v ∈ {x | x ∈ c} := hv
  rw [h1, h2, decide_eq_decide]
  constructor
  · intro h
    exact hσ hmi hmv h
  · intro h
    exact congrArg σ h

theorem translate_map_inj (c : List ℕ) (σ : ℕ → ℕ)
    (hσ : Set.InjOn σ {v | v ∈ c}) :
    translateChromosome2Roles (c.map σ) = translateChromosome2Roles c := by
  unfold translateChromosome2Roles
  rw [firstOccValues_map σ c hσ, List.map_map]
  apply List.map_congr_left
  intro x hx
  exact groupIndices_map c σ x (mem_of_mem_firstOccValues hx) hσ

theorem canon_translate (c : List ℕ) :
    translateChromosome2Roles (canonChromosome c) = translateChromosome2Roles c := by
  apply translate_map_inj
  intro x hx y hy h
  exact indexOf_injOn_mem (roleIds c) (mem_roleIds.mpr hx) (mem_roleIds.mpr hy) h

theorem canon_mem_lt (c : List ℕ) {x : ℕ} (hx : x ∈ canonChromosome c) :
    x < (roleIds c).length := by
  rcases List.mem_map.mp hx with ⟨v, hv, rfl⟩
  exact List.indexOf_lt_length.mpr (mem_roleIds.mpr hv)

theorem mem_canonChromosome_iff (c : List ℕ) {j : ℕ} :
    j ∈ canonChromosome c ↔ j < (roleIds c).length := by
  constructor
  · exact canon_mem_lt c
  · intro hj
    refine List.mem_map.mpr ⟨(roleIds c)[j], ?_, ?_⟩
    · exact mem_roleIds.mp (List.getElem_mem hj)
    · exact List.indexOf_getElem (roleIds_nodup c) j hj

theorem roleIds_canon (c : List ℕ) :
    roleIds (canonChromosome c) = List.range (roleIds c).length := by
  by_cases hk : (roleIds c).length = 0
  · have hnil : canonChromosome c = [] := by
      apply List.eq_nil_iff_forall_not_mem.mpr
      intro x hx
      have := canon_mem_lt c hx
      omega
    rw [hnil, hk]
    rfl
  · have hub : ∀ x ∈ canonChromosome c, x ≤ (roleIds c).length - 1 := by
      intro x hx
      have := canon_mem_lt c hx
      omega
    have hmem : (roleIds c).length - 1 ∈ canonChromosome c :=
      (mem_canonChromosome_iff c).mpr (by omega)
    have hmax : (canonChromosome c).foldr max 0 = (roleIds c).length - 1 :=
      le_antisymm (foldr_max_le hub) (le_foldr_max hmem)
    unfold roleIds
    rw [hmax]
    have hk1 : (roleIds c).length - 1 + 1 = (roleIds c).length := by omega
    rw [hk1]
    apply List.filter_eq_self.mpr
    intro j hj
    exact decide_eq_true ((mem_canonChromosome_iff c).mpr (List.mem_range.mp hj))

theorem indexOf_range {k x : ℕ} (h : x < k) : (List.range k).indexOf x = x := by
  have hlt : x < (List.range k).length := by simpa using h
  have hg : (List.range k)[x] = x := List.getElem_range x hlt
  have hidx := List.indexOf_getElem (List.nodup_range k) x hlt
  rwa [hg] at hidx

theorem canon_idem (c : List ℕ) :
    canonChromosome (canonChromosome c) = canonChromosome c := by
  have hmap : ∀ x ∈ canonChromosome c,
      (roleIds (canonChromosome c)).indexOf x = id x := by
    intro x hx
    rw [roleIds_canon]
    exact indexOf_range (canon_mem_lt c hx)
  show (canonChromosome c).map _ = canonChromosome c
  rw [List.map_congr_left hmap, List.map_id]

/-- C4 counterexample.  The chromosomes `[0,1]` and `[1,0]` differ only by
the gene-label permutation `v ↦ 1 - v` and encode the same partition of
basic-role indices (as `translateChromosome2Roles` shows), yet the
canonicalization of `eval_func` maps them to distinct canonical forms; and
the canonical form of `[2,0]` is `[1,0]`, the sorted-rank relabeling, not
the first-occurrence relabeling `[0,1]`. -/
theorem canonPermutationCex :
    canonChromosome [1, 0] ≠ canonChromosome [0, 1] ∧
    [1, 0] = List.map (fun v => 1 - v) [0, 1] ∧
    translateChromosome2Roles [1, 0] = translateChromosome2Roles [0, 1] ∧
    canonChromosome [2, 0] = [1, 0] := by decide

/-- C4 amended.  Before fitness evaluation `eval_func` relabels each gene
to the rank of its value in the sorted list of distinct gene values.  This
canonicalization is idempotent; it is not invariant under permutations of
the gene labels, but any two chromosomes that differ by an injective
relabeling of genes still decode (after canonicalization, which is what the
memoized `cached_eval_func` receives) to the same ordered list of
basic-role index groups, and hence receive the same fitness value. -/
theorem canonIdempotentPartitionInvariant (c : List ℕ) (σ : ℕ → ℕ)
    (hσ : Set.InjOn σ {v | v ∈ c}) :
    canonChromosome (canonChromosome c) = canonChromosome c ∧
    translateChromosome2Roles (canonChromosome (c.map σ)) =
      translateChromosome2Roles (canonChromosome c) := by
  refine ⟨canon_idem c, ?_⟩
  rw [canon_translate, canon_translate, translate_map_inj c σ hσ]

/-- Witness for C4: the amended theorem applied to the chromosome `[0,1]`
and the injective relabeling `v ↦ 2 - v`. -/
theorem canonIdempotentPartitionInvariant_witness :
    canonChromosome (canonChromosome [0, 1]) = canonChromosome [0, 1] ∧
    translateChromosome2Roles (canonChromosome ([0, 1].map (fun v => 2 - v))) =
      translateChromosome2Roles (canonChromosome [0, 1]) := by
  have h : Set.InjOn (fun v => 2 - v) {v | v ∈ ([0, 1] : List ℕ)} := by
    intro x hx y hy hxy
    simp only [Set.mem_setOf_eq, List.mem_cons, List.not_mem_nil, or_false] at hx hy
    have hxy' : 2 - x = 2 - y := hxy
    rcases hx with rfl | rfl <;> rcases hy with rfl | rfl <;> omega
  exact canonIdempotentPartitionInvariant [0, 1] (fun v => 2 - v) h

/-- C5 counterexample.  With two users and exactly one basic role, the
miner does not return a single full-universe role: the
`assert n > 1, "the number of basic roles must be greater than one"` on
line 477 fires and the run fails with `AssertionError`. -/
theorem miningDegenerateCex :
    miningWithGAWith1DRealChromosome 2 {"f1", "f2"}
        [({"a", "b"}, {"f1", "f2"})] =
      .error "the number of basic roles must be greater than one" := by
  rfl

/-- C5 amended.  The degenerate short-circuits of
`miningWithGAWith1DRealChromosome` key on the number of users `self.U`,
not on the number of basic roles: with no users the miner returns no
roles, with exactly one user it returns the single role
`([0], set(self.permissions))` containing the full permission universe,
and with at least two users it asserts that the basic-role list has more
than one element, failing with `AssertionError` otherwise. -/
theorem miningDegenerate (U : ℕ) (perms : Finset String) (br : List Role) :
    (U = 0 → miningWithGAWith1DRealChromosome U perms br = .ok (.roles [])) ∧
    (U = 1 → miningWithGAWith1DRealChromosome U perms br =
      .ok (.roles [([0], perms)])) ∧
    (2 ≤ U → br.length ≤ 1 →
      miningWithGAWith1DRealChromosome U perms br =
        .error "the number of basic roles must be greater than one") := by
  refine ⟨?_, ?_, ?_⟩
  · rintro rfl
    rfl
  · rintro rfl
    rfl
  · intro h2 hbr
    unfold miningWithGAWith1DRealChromosome
    rw [if_neg (by omega), if_neg (by omega), if_neg (by omega)]

/-- Witness for C5: the three branches of the amended theorem at concrete
inputs. -/
theorem miningDegenerate_witness :
    miningWithGAWith1DRealChromosome 0 {"f1"} [] = .ok (.roles []) ∧
    miningWithGAWith1DRealChromosome 1 {"f1"} [] =
      .ok (.roles [([0], {"f1"})]) ∧
    miningWithGAWith1DRealChromosome 2 {"f1"} [({"a"}, {"f1"})] =
      .error "the number of basic roles must be greater than one" :=
  ⟨(miningDegenerate 0 {"f1"} []).1 rfl,
   (miningDegenerate 1 {"f1"} []).2.1 rfl,
   (miningDegenerate 2 {"f1"} [({"a"}, {"f1"})]).2.2 (by omega) (by simp)⟩

/-- C10 counterexample.  The engine has no minimum-history threshold and no
`InsufficientHistory` error kind: a history holding a single successful
record (far below 50) is loaded into a one-user matrix and mined into one
role; nothing aborts. -/
theorem noHistoryThresholdCex :
    (loadedUsers [⟨"0xAb", "f1", 3, .b true⟩]).card = 1 ∧
    miningWithGAWith1DRealChromosome
        (loadedUsers [⟨"0xAb", "f1", 3, .b true⟩]).card
        (loadedFunctions [⟨"0xAb", "f1", 3, .b true⟩])
        [({"0xab"}, {"f1"})] =
      .ok (.roles [([0], loadedFunctions [⟨"0xAb", "f1", 3, .b true⟩])]) := by
  constructor
  · rfl
  · rfl

/-- C10 amended.  `lightweightrolemining` applies no record-count check at
all: whenever the loaded history produces exactly one user, the miner
returns the single-user short-circuit role, whatever the record count and
whatever the basic-role list. -/
theorem singleCallerMines (records : List CallRecord) (br : List Role)
    (h : (loadedUsers records).card = 1) :
    miningWithGAWith1DRealChromosome (loadedUsers records).card
        (loadedFunctions records) br =
      .ok (.roles [([0], loadedFunctions records)]) := by
  rw [h]
  rfl

/-- Witness for C10: the amended theorem at the one-record history. -/
theorem singleCallerMines_witness :
    miningWithGAWith1DRealChromosome
        (loadedUsers [⟨"0xAb", "f1", 3, .b true⟩]).card
        (loadedFunctions [⟨"0xAb", "f1", 3, .b true⟩]) [] =
      .ok (.roles [([0], loadedFunctions [⟨"0xAb", "f1", 3, .b true⟩])]) :=
  singleCallerMines [⟨"0xAb", "f1", 3, .b true⟩] [] (by rfl)

theorem foldl_set_length {α : Type} (g : ℕ → α) :
    ∀ (l : List ℕ) (acc : List α),
      (l.foldl (fun a j => a.set j (g j)) acc).length = acc.length := by
  intro l
  induction l with
  | nil => intro acc; rfl
  | cons j l ih =>
    intro acc
    rw [List.foldl_cons, ih, List.length_set]

theorem foldl_set_getD {α : Type} (g : ℕ → α) (d : α) :
    ∀ (l : List ℕ) (acc : List α), (∀ j ∈ l, j < acc.length) → ∀ i,
      ((l.foldl (fun a j => a.set j (g j)) acc).getD i d) =
        if i ∈ l then g i else acc.getD i d := by
  intro l
  induction l with
  | nil =>
    intro acc _ i
    simp
  | cons j l ih =>
    intro acc hb i
    rw [List.foldl_cons,
      ih (acc.set j (g j)) (fun k hk => by
        rw [List.length_set]; exact hb k (List.mem_cons_of_mem j hk)) i]
    by_cases hil : i ∈ l
    · rw [if_pos hil, if_pos (List.mem_cons_of_mem j hil)]
    · rw [if_neg hil]
      by_cases hij : i = j
      · subst hij
        rw [if_pos (List.mem_cons_self i l)]
        have hlt : i < acc.length := hb i (List.mem_cons_self i l)
        rw [List.getD_eq_getElem?_getD, List.getElem?_set_self',
          List.getElem?_eq_getElem hlt]
        rfl
      · rw [if_neg (by
          intro hmem
          rcases List.mem_cons.mp hmem with h | h
          · exact hij h
          · exact hil h)]
        rw [List.getD_eq_getElem?_getD, List.getElem?_set_ne (fun h => hij h.symm),
          ← List.getD_eq_getElem?_getD]

theorem unionList_eq_biUnion {α : Type} [DecidableEq α] :
    ∀ l : List (Finset α),
      unionList l = (Finset.range l.length).biUnion fun j => l.getD j ∅ := by
  intro l
  induction l with
  | nil => rfl
  | cons s l ih =>
    show s ∪ unionList l = _
    rw [ih]
    ext x
    simp only [Finset.mem_union, Finset.mem_biUnion, Finset.mem_range, List.length_cons]
    constructor
    · rintro (hx | ⟨j, hj, hx⟩)
      · exact ⟨0, Nat.succ_pos _, hx⟩
      · exact ⟨j + 1, by omega, by simpa using hx⟩
    · rintro ⟨j, hj, hx⟩
      cases j with
      | zero => exact Or.inl (by simpa using hx)
      | succ j => exact Or.inr ⟨j, by omega, by simpa using hx⟩

theorem unionList_take {α : Type} [DecidableEq α] (W : List (Finset α)) (i : ℕ)
    (h : i ≤ W.length) :
    unionList (W.take i) = (Finset.range i).biUnion fun j => W.getD j ∅ := by
  rw [unionList_eq_biUnion, List.length_take, min_eq_left h]
  apply Finset.biUnion_congr rfl
  intro j hj
  rw [List.getD_eq_getElem?_getD, List.getD_eq_getElem?_getD, List.getElem?_take,
    if_pos (Finset.mem_range.mp hj)]

theorem unionList_drop {α : Type} [DecidableEq α] (W : List (Finset α)) (k : ℕ) :
    unionList (W.drop k) = (Finset.Ico k W.length).biUnion fun j => W.getD j ∅ := by
  rw [unionList_eq_biUnion, List.length_drop]
  ext x
  simp only [Finset.mem_biUnion, Finset.mem_range, Finset.mem_Ico]
  constructor
  · rintro ⟨j, hj, hx⟩
    refine ⟨k + j, ⟨Nat.le_add_right _ _, by omega⟩, ?_⟩
    rw [List.getD_eq_getElem?_getD, List.getElem?_drop] at hx
    rw [List.getD_eq_getElem?_getD]
    exact hx
  · rintro ⟨j, hjk, hx⟩
    refine ⟨j - k, by omega, ?_⟩
    rw [List.getD_eq_getElem?_getD, List.getElem?_drop]
    rw [List.getD_eq_getElem?_getD] at hx
    have hkj : k + (j - k) = j := by omega
    rw [hkj]
    exact hx

/-- C2.  The deduplication loop rewrites every position `i` to
`dataW_i \ ((⋃ j < i, dataW_j) \ (⋃ j > i, dataW_j))`, where both unions
range over the original pre-pass write sets (`newDataW` is written while
all reads come from the untouched `dataW` list), and the pass preserves
the list length. -/
theorem dedupPass_spec (W : List (Finset String)) (i : ℕ) (h : i < W.length) :
    (dedupPass W).length = W.length ∧
    (dedupPass W).getD i ∅ =
      W.getD i ∅ \
        (((Finset.range i).biUnion fun j => W.getD j ∅) \
         ((Finset.Ico (i + 1) W.length).biUnion fun j => W.getD j ∅)) := by
  have hg : dedupPass W =
      (List.range W.length).foldl
        (fun a j => a.set j ((fun k =>
          W.getD k ∅ \ (unionList (W.take k) \ unionList (W.drop (k + 1)))) j)) W := rfl
  constructor
  · rw [hg, foldl_set_length]
  · rw [hg, foldl_set_getD _ _ _ _ (fun j hj => List.mem_range.mp hj) i,
      if_pos (List.mem_range.mpr h), unionList_take _ _ (by omega), unionList_drop]

/-- Witness for C2: the deduplication formula evaluated on
`[{"x"}, {"x","y"}, {"x"}]` at index 2. -/
theorem dedupPass_spec_witness :
    (dedupPass [{"x"}, {"x", "y"}, {"x"}]).length =
      ([{"x"}, {"x", "y"}, {"x"}] : List (Finset String)).length ∧
    (dedupPass [{"x"}, {"x", "y"}, {"x"}]).getD 2 ∅ =
      ([{"x"}, {"x", "y"}, {"x"}] : List (Finset String)).getD 2 ∅ \
        (((Finset.range 2).biUnion fun j =>
            ([{"x"}, {"x", "y"}, {"x"}] : List (Finset String)).getD j ∅) \
         ((Finset.Ico 3 ([{"x"}, {"x", "y"}, {"x"}] : List (Finset String)).length).biUnion
            fun j => ([{"x"}, {"x", "y"}, {"x"}] : List (Finset String)).getD j ∅)) :=
  dedupPass_spec [{"x"}, {"x", "y"}, {"x"}] 2 (by decide)

theorem bind_ok_elim {α β : Type} {a : Except String α} {f : α → Except String β}
    {b : β} (h : (a >>= f) = .ok b) : ∃ x, a = .ok x ∧ f x = .ok b := by
  cases a with
  | error e => exact Except.noConfusion (show Except.error e = Except.ok b from h)
  | ok x => exact ⟨x, rfl, h⟩

theorem bind_ok_intro {α β : Type} {a : Except String α} {f : α → Except String β}
    {x : α} {b : β} (h1 : a = .ok x) (h2 : f x = .ok b) : (a >>= f) = .ok b := by
  rw [h1]
  exact h2

theorem mapM_ok_mem {α β : Type} (f : α → Except String β) :
    ∀ (l : List α) (ys : List β), l.mapM f = .ok ys →
      ∀ x ∈ l, ∃ y, f x = .ok y ∧ y ∈ ys := by
  intro l
  induction l with
  | nil => intro ys _ x hx; cases hx
  | cons a l ih =>
    intro ys h x hx
    rw [List.mapM_cons] at h
    rcases bind_ok_elim h with ⟨y, hy, h2⟩
    rcases bind_ok_elim h2 with ⟨ys', hys', h3⟩
    rcases List.mem_cons.mp hx with rfl | hx'
    · refine ⟨y, hy, ?_⟩
      rw [show ys = y :: ys' from by cases h3; rfl]
      exact List.mem_cons_self _ _
    · obtain ⟨z, hz, hzs⟩ := ih ys' hys' x hx'
      refine ⟨z, hz, ?_⟩
      rw [show ys = y :: ys' from by cases h3; rfl]
      exact List.mem_cons_of_mem _ hzs

theorem mapM_ok_mem_rev {α β : Type} (f : α → Except String β) :
    ∀ (l : List α) (ys : List β), l.mapM f = .ok ys →
      ∀ y ∈ ys, ∃ x ∈ l, f x = .ok y := by
  intro l
  induction l with
  | nil =>
    intro ys h y hy
    rw [List.mapM_nil] at h
    cases h
    cases hy
  | cons a l ih =>
    intro ys h y hy
    rw [List.mapM_cons] at h
    rcases bind_ok_elim h with ⟨z, hz, h2⟩
    rcases bind_ok_elim h2 with ⟨ys', hys', h3⟩
    cases h3
    rcases List.mem_cons.mp hy with rfl | hy'
    · exact ⟨a, List.mem_cons_self _ _, hz⟩
    · obtain ⟨x, hx, hfx⟩ := ih ys' hys' y hy'
      exact ⟨x, List.mem_cons_of_mem _ hx, hfx⟩

theorem mapM_ok_exists {α β : Type} (f : α → Except String β) :
    ∀ (l : List α), (∀ x ∈ l, ∃ y, f x = .ok y) →
      ∃ ys, l.mapM f = .ok ys := by
  intro l
  induction l with
  | nil => intro _; exact ⟨[], List.mapM_nil f⟩
  | cons a l ih =>
    intro h
    obtain ⟨y, hy⟩ := h a (List.mem_cons_self a l)
    obtain ⟨ys, hys⟩ := ih fun x hx => h x (List.mem_cons_of_mem a hx)
    refine ⟨y :: ys, ?_⟩
    rw [List.mapM_cons]
    exact bind_ok_intro hy (bind_ok_intro hys rfl)

theorem mem_foldl_union {α : Type} [DecidableEq α] :
    ∀ (l : List (Finset α)) (init : Finset α) (x : α),
      x ∈ l.foldl (· ∪ ·) init ↔ x ∈ init ∨ ∃ s ∈ l, x ∈ s := by
  intro l
  induction l with
  | nil => intro init x; simp
  | cons s l ih =>
    intro init x
    rw [List.foldl_cons, ih]
    simp only [Finset.mem_union, List.mem_cons]
    constructor
    · rintro ((h | h) | ⟨t, ht, hx⟩)
      · exact Or.inl h
      · exact Or.inr ⟨s, Or.inl rfl, h⟩
      · exact Or.inr ⟨t, Or.inr ht, hx⟩
    · rintro (h | ⟨t, (rfl | ht), hx⟩)
      · exact Or.inl (Or.inl h)
      · exact Or.inl (Or.inr hx)
      · exact Or.inr ⟨t, ht, hx⟩

theorem mem_pairList {n i j : ℕ} : (i, j) ∈ pairList n ↔ i < j ∧ j < n := by
  simp only [pairList, List.mem_flatMap, List.mem_map, List.mem_filter,
    List.mem_range, decide_eq_true_eq]
  constructor
  · rintro ⟨a, ha, b, ⟨hb, hab⟩, heq⟩
    cases heq
    exact ⟨hab, hb⟩
  · rintro ⟨hij, hj⟩
    exact ⟨i, by omega, j, ⟨hj, hij⟩, rfl⟩

theorem getWritefuncs_ok_eq {reads2 writes : RWMap} {role : Role}
    {datas fns : Finset String}
    (h : getWritefuncs reads2 writes role datas = .ok fns) :
    fns = (writes.dom.filter fun f =>
      ((writes.val f \ reads2.val f) ∩ datas).Nonempty) ∩ role.2 := by
  unfold getWritefuncs at h
  by_cases hc : (writes.dom.filter fun f => f ∉ reads2.dom).Nonempty
  · rw [if_pos hc] at h
    cases h
  · rw [if_neg hc] at h
    cases h
    rfl

theorem getWritefuncs_spec {reads2 writes : RWMap} {role : Role}
    {datas fns : Finset String}
    (h : getWritefuncs reads2 writes role datas = .ok fns) :
    fns ⊆ role.2 ∧
      ∀ f ∈ fns, f ∈ writes.dom ∧
        ((writes.val f \ reads2.val f) ∩ datas).Nonempty := by
  rw [getWritefuncs_ok_eq h]
  refine ⟨Finset.inter_subset_right, ?_⟩
  intro f hf
  have := Finset.mem_filter.mp (Finset.mem_inter.mp hf).1
  exact ⟨this.1, this.2⟩

theorem getWritefuncs_ok_of_total {reads2 writes : RWMap}
    (h2 : ∀ f ∈ writes.dom, f ∈ reads2.dom) (role : Role) (datas : Finset String) :
    ∃ fns, getWritefuncs reads2 writes role datas = .ok fns := by
  have hcond : ¬ (writes.dom.filter fun f => f ∉ reads2.dom).Nonempty := by
    intro hne
    obtain ⟨f, hf⟩ := hne
    have hm := Finset.mem_filter.mp hf
    exact hm.2 (h2 f hm.1)
  exact ⟨_, by unfold getWritefuncs; rw [if_neg hcond]⟩

theorem roleWrites_ok_of {reads writes : RWMap} {funcs : Finset String}
    (h : ∀ f ∈ funcs, f ∈ writes.dom → f ∈ reads.dom) :
    ∃ w, roleWrites reads writes funcs = .ok w := by
  have hcond : ¬ (funcs.filter fun f => f ∈ writes.dom ∧ f ∉ reads.dom).Nonempty := by
    intro hne
    obtain ⟨f, hf⟩ := hne
    have hm := Finset.mem_filter.mp hf
    exact hm.2.2 (h f hm.1 hm.2.1)
  exact ⟨_, by unfold roleWrites; rw [if_neg hcond]⟩

theorem createInfo_ok_structure {reads reads2 writes : RWMap}
    {roles : List Role} {ps : Finset Policy}
    (h : createInformationSecurityPolicy reads reads2 writes roles = .ok ps) :
    ∃ dataW pss,
      roles.mapM (fun r => roleWrites reads writes r.2) = .ok dataW ∧
      (pairList roles.length).mapM (fun p =>
        pairPolicies reads2 writes roles (dedupPass dataW) p.1 p.2) = .ok pss ∧
      ps = pss.foldl (· ∪ ·) ∅ := by
  unfold createInformationSecurityPolicy at h
  rcases bind_ok_elim h with ⟨dataW, h1, h2⟩
  rcases bind_ok_elim h2 with ⟨pss, h3, h4⟩
  cases h4
  exact ⟨dataW, pss, h1, h3, rfl⟩

theorem sepPolicy_mem {reads2 writes : RWMap} {role : Role}
    {datas : Finset String} {s : Finset Policy} {p : Policy}
    (hs : sepPolicy reads2 writes role datas = .ok s) (hp : p ∈ s) :
    getWritefuncs reads2 writes p.1 p.2.1 = .ok p.2.2 := by
  unfold sepPolicy at hs
  split at hs
  · rcases bind_ok_elim hs with ⟨fns, hfns, hpure⟩
    cases hpure
    rcases Finset.mem_singleton.mp hp with rfl
    exact hfns
  · cases hs
    cases hp

theorem pairPolicies_mem {reads2 writes : RWMap} {roles : List Role}
    {W : List (Finset String)} {i j : ℕ} {s : Finset Policy} {p : Policy}
    (hs : pairPolicies reads2 writes roles W i j = .ok s) (hp : p ∈ s) :
    getWritefuncs reads2 writes p.1 p.2.1 = .ok p.2.2 := by
  unfold pairPolicies at hs
  split at hs
  · rcases bind_ok_elim hs with ⟨fns, hfns, hpure⟩
    cases hpure
    rcases Finset.mem_singleton.mp hp with rfl
    exact hfns
  · split at hs
    · rcases bind_ok_elim hs with ⟨fns, hfns, hpure⟩
      cases hpure
      rcases Finset.mem_singleton.mp hp with rfl
      exact hfns
    · rcases bind_ok_elim hs with ⟨s1, hs1, h2⟩
      rcases bind_ok_elim h2 with ⟨s2, hs2, h3⟩
      cases h3
      rcases Finset.mem_union.mp hp with hp1 | hp2
      · exact sepPolicy_mem hs1 hp1
      · exact sepPolicy_mem hs2 hp2

/-- C7.  Whenever the policy deriver returns a policy set, every policy's
`privileged_functions` component is a subset of the policy role's function
set, and every listed function has an unconditional write
(`writes[f] \ reads2[f]`) meeting the policy's data set. -/
theorem policyPrivilegedSound (reads reads2 writes : RWMap) (roles : List Role)
    (ps : Finset Policy)
    (hps : createInformationSecurityPolicy reads reads2 writes roles = .ok ps) :
    ∀ p ∈ ps, p.2.2 ⊆ p.1.2 ∧
      ∀ f ∈ p.2.2, ((writes.val f \ reads2.val f) ∩ p.2.1).Nonempty := by
  obtain ⟨dataW, pss, hW, hpss, rfl⟩ := createInfo_ok_structure hps
  intro p hp
  rcases (mem_foldl_union pss ∅ p).mp hp with h | ⟨s, hsmem, hps'⟩
  · cases h
  · obtain ⟨pr, _, hok⟩ := mapM_ok_mem_rev _ _ _ hpss s hsmem
    have hgwf := pairPolicies_mem hok hps'
    have hspec := getWritefuncs_spec hgwf
    exact ⟨hspec.1, fun f hf => (hspec.2 f hf).2⟩

/-- Witness for C7: the soundness property at the integrity policy
`(({"b"},{"g"}), {"y"}, {"g"})` emitted for the `rolesFix` fixture. -/
theorem policyPrivilegedSound_witness :
    ((({"b"}, {"g"}) : Role), ({"y"} : Finset String),
        ({"g"} : Finset String)).2.2 ⊆
      ((({"b"}, {"g"}) : Role), ({"y"} : Finset String),
        ({"g"} : Finset String)).1.2 ∧
    ∀ f ∈ ((({"b"}, {"g"}) : Role), ({"y"} : Finset String),
        ({"g"} : Finset String)).2.2,
      ((writesFix.val f \ readsFix.val f) ∩
        ((({"b"}, {"g"}) : Role), ({"y"} : Finset String),
          ({"g"} : Finset String)).2.1).Nonempty :=
  policyPrivilegedSound readsFix readsFix writesFix rolesFix
    {((({"b"}, {"g"}) : Role), ({"y"} : Finset String), ({"g"} : Finset String)),
     ((({"a"}, {"f"}) : Role), ({"x"} : Finset String), ({"f"} : Finset String)),
     ((({"b"}, {"g"}) : Role), ({"x", "y"} : Finset String), ({"g"} : Finset String))}
    (by decide) _ (by decide)

/-- C1 counterexample.  Two roles whose post-deduplication write sets are
`∅ ⊊ {"x"}`: the writes-mapM yields `[∅, {"x"}]`, the deduplication leaves
both sets unchanged, the lattice entry `L[0,1]` is `-1` (the claim says
`+1`), and the emitted set holds exactly one integrity policy — for role 1
with data `{"x"} = dataW_1 \ dataW_0`, not the claimed
`(R_0, dataW_0 \ dataW_1)`. -/
theorem latticeSignCex :
    ([(({"a"}, {"f"}) : Role), (({"b"}, {"g"}) : Role)].mapM fun r =>
      roleWrites ⟨{"f", "g"}, fun _ => ∅⟩
        ⟨{"f", "g"}, fun s => if s = "g" then {"x"} else ∅⟩ r.2) =
      .ok [∅, {"x"}] ∧
    (dedupPass [∅, {"x"}]).getD 0 ∅ ⊂ (dedupPass [∅, {"x"}]).getD 1 ∅ ∧
    securityLattice (dedupPass [∅, {"x"}]) 0 1 = -1 ∧
    createInformationSecurityPolicy ⟨{"f", "g"}, fun _ => ∅⟩
        ⟨{"f", "g"}, fun _ => ∅⟩
        ⟨{"f", "g"}, fun s => if s = "g" then {"x"} else ∅⟩
        [(({"a"}, {"f"}) : Role), (({"b"}, {"g"}) : Role)] =
      .ok {((({"b"}, {"g"}) : Role), ({"x"} : Finset String),
            ({"g"} : Finset String))} := by
  refine ⟨by decide, by decide, by decide, by decide⟩

/-- C1 amended.  For a pair `i < j` of final roles whose
post-deduplication write sets satisfy `dataW_i ⊊ dataW_j`, the deriver
sets `L[i,j] = -1` and `L[j,i] = +1` (not `+1`/`-1` as claimed), and the
single integrity policy emitted for that pair is
`(R_j, dataW_j \ dataW_i, WriteFns(R_j, dataW_j \ dataW_i))`; that policy
belongs to the returned policy set. -/
theorem integrityPolicyDirection (reads reads2 writes : RWMap)
    (roles : List Role) (dataW : List (Finset String)) (ps : Finset Policy)
    (i j : ℕ)
    (hW : roles.mapM (fun r => roleWrites reads writes r.2) = .ok dataW)
    (hps : createInformationSecurityPolicy reads reads2 writes roles = .ok ps)
    (hij : i < j) (hj : j < roles.length)
    (hsub : (dedupPass dataW).getD i ∅ ⊂ (dedupPass dataW).getD j ∅) :
    securityLattice (dedupPass dataW) i j = -1 ∧
    securityLattice (dedupPass dataW) j i = 1 ∧
    ∃ fns,
      getWritefuncs reads2 writes (roles.getD j (∅, ∅))
          ((dedupPass dataW).getD j ∅ \ (dedupPass dataW).getD i ∅) = .ok fns ∧
      pairPolicies reads2 writes roles (dedupPass dataW) i j =
        .ok {(roles.getD j (∅, ∅),
              (dedupPass dataW).getD j ∅ \ (dedupPass dataW).getD i ∅, fns)} ∧
      (roles.getD j (∅, ∅),
        (dedupPass dataW).getD j ∅ \ (dedupPass dataW).getD i ∅, fns) ∈ ps := by
  have hlatU : latEntryUpper (dedupPass dataW) i j = -1 := by
    unfold latEntryUpper
    rw [if_pos ⟨subset_of_ssubset hsub, Finset.card_lt_card hsub⟩]
  have hlat : securityLattice (dedupPass dataW) i j = -1 := by
    unfold securityLattice
    rw [if_pos hij, hlatU]
  have hlat' : securityLattice (dedupPass dataW) j i = 1 := by
    unfold securityLattice
    rw [if_neg (by omega), if_pos hij, hlatU]
    rfl
  obtain ⟨dataW', pss, hW', hpss, rfl⟩ := createInfo_ok_structure hps
  have hdW : dataW' = dataW := by
    have := hW'.symm.trans hW
    cases this
    rfl
  subst hdW
  obtain ⟨s, hok, hsmem⟩ := mapM_ok_mem _ _ _ hpss (i, j)
    (mem_pairList.mpr ⟨hij, hj⟩)
  have hok' := hok
  unfold pairPolicies at hok'
  rw [if_neg (by rw [hlat]; omega), if_pos hlat] at hok'
  rcases bind_ok_elim hok' with ⟨fns, hfns, hpure⟩
  cases hpure
  refine ⟨hlat, hlat', fns, hfns, hok, ?_⟩
  apply (mem_foldl_union pss ∅ _).mpr
  exact Or.inr ⟨_, hsmem, Finset.mem_singleton_self _⟩

/-- Witness for C1: the amended theorem at the `rolesFix` fixture, whose
post-deduplication write sets are `[{"x"}, {"x","y"}, ∅]`, with the pair
`(0, 1)` satisfying `{"x"} ⊊ {"x","y"}`. -/
theorem integrityPolicyDirection_witness :
    securityLattice (dedupPass [{"x"}, {"x", "y"}, {"x"}]) 0 1 = -1 ∧
    securityLattice (dedupPass [{"x"}, {"x", "y"}, {"x"}]) 1 0 = 1 ∧
    ∃ fns,
      getWritefuncs readsFix writesFix (rolesFix.getD 1 (∅, ∅))
          ((dedupPass [{"x"}, {"x", "y"}, {"x"}]).getD 1 ∅ \
            (dedupPass [{"x"}, {"x", "y"}, {"x"}]).getD 0 ∅) = .ok fns ∧
      pairPolicies readsFix writesFix rolesFix
          (dedupPass [{"x"}, {"x", "y"}, {"x"}]) 0 1 =
        .ok {(rolesFix.getD 1 (∅, ∅),
              (dedupPass [{"x"}, {"x", "y"}, {"x"}]).getD 1 ∅ \
                (dedupPass [{"x"}, {"x", "y"}, {"x"}]).getD 0 ∅, fns)} ∧
      (rolesFix.getD 1 (∅, ∅),
        (dedupPass [{"x"}, {"x", "y"}, {"x"}]).getD 1 ∅ \
          (dedupPass [{"x"}, {"x", "y"}, {"x"}]).getD 0 ∅, fns) ∈
        ({((({"b"}, {"g"}) : Role), ({"y"} : Finset String), ({"g"} : Finset String)),
          ((({"a"}, {"f"}) : Role), ({"x"} : Finset String), ({"f"} : Finset String)),
          ((({"b"}, {"g"}) : Role), ({"x", "y"} : Finset String),
            ({"g"} : Finset String))} : Finset Policy) :=
  integrityPolicyDirection readsFix readsFix writesFix rolesFix
    [{"x"}, {"x", "y"}, {"x"}]
    {((({"b"}, {"g"}) : Role), ({"y"} : Finset String), ({"g"} : Finset String)),
     ((({"a"}, {"f"}) : Role), ({"x"} : Finset String), ({"f"} : Finset String)),
     ((({"b"}, {"g"}) : Role), ({"x", "y"} : Finset String), ({"g"} : Finset String))}
    0 1 (by decide) (by decide) (by decide) (by decide) (by decide)

/-- C3 exhibit.  The incomparable post-deduplication write sets
`[{"x","y"}, {"z"}]` should give `L[0,1] = 0` and separation policies, but
the source's `elif` compares `dataW[i]` with itself (`issuperset` of the
same set, identically true), so only the cardinality test remains:
`L[0,1] = 1` and a single integrity-shaped policy for role 0 is emitted
instead of two separation policies. -/
theorem latticeIncomparableBug :
    ¬ ((dedupPass [{"x", "y"}, {"z"}]).getD 0 ∅ ⊆
        (dedupPass [{"x", "y"}, {"z"}]).getD 1 ∅) ∧
    ¬ ((dedupPass [{"x", "y"}, {"z"}]).getD 1 ∅ ⊆
        (dedupPass [{"x", "y"}, {"z"}]).getD 0 ∅) ∧
    securityLattice (dedupPass [{"x", "y"}, {"z"}]) 0 1 = 1 ∧
    securityLattice (dedupPass [{"x", "y"}, {"z"}]) 1 0 = -1 ∧
    createInformationSecurityPolicy ⟨{"f", "g"}, fun _ => ∅⟩
        ⟨{"f", "g"}, fun _ => ∅⟩
        ⟨{"f", "g"}, fun s =>
          if s = "f" then {"x", "y"} else if s = "g" then {"z"} else ∅⟩
        [(({"a"}, {"f"}) : Role), (({"b"}, {"g"}) : Role)] =
      .ok {((({"a"}, {"f"}) : Role), ({"x", "y"} : Finset String),
            ({"f"} : Finset String))} := by
  refine ⟨by decide, by decide, by decide, by decide, by decide⟩

/-- C9 counterexample.  A role whose function `"f"` is present in `writes`
but absent from `reads`: the comprehension of line 562 accesses
`reads["f"]` without a guard and the deriver raises `KeyError` instead of
returning a policy set. -/
theorem deriverKeyErrorCex :
    createInformationSecurityPolicy ⟨∅, fun _ => ∅⟩ ⟨{"f"}, fun _ => ∅⟩
        ⟨{"f"}, fun _ => {"x"}⟩ [(({"a"}, {"f"}) : Role)] =
      .error "KeyError: reads" := by decide

theorem pairPolicies_ok_of_total {reads2 writes : RWMap}
    (h2 : ∀ f ∈ writes.dom, f ∈ reads2.dom) (roles : List Role)
    (W : List (Finset String)) (i j : ℕ) :
    ∃ s, pairPolicies reads2 writes roles W i j = .ok s := by
  have hsep : ∀ role datas, ∃ s, sepPolicy reads2 writes role datas = .ok s := by
    intro role datas
    unfold sepPolicy
    by_cases hne : datas.Nonempty
    · obtain ⟨fns, hfns⟩ := getWritefuncs_ok_of_total h2 role datas
      rw [if_pos hne]
      exact ⟨_, bind_ok_intro hfns rfl⟩
    · rw [if_neg hne]
      exact ⟨∅, rfl⟩
  unfold pairPolicies
  by_cases h1 : securityLattice W i j = 1
  · rw [if_pos h1]
    obtain ⟨fns, hfns⟩ := getWritefuncs_ok_of_total h2 (roles.getD i (∅, ∅))
      (W.getD i ∅ \ W.getD j ∅)
    exact ⟨_, bind_ok_intro hfns rfl⟩
  · rw [if_neg h1]
    by_cases hm1 : securityLattice W i j = -1
    · rw [if_pos hm1]
      obtain ⟨fns, hfns⟩ := getWritefuncs_ok_of_total h2 (roles.getD j (∅, ∅))
        (W.getD j ∅ \ W.getD i ∅)
      exact ⟨_, bind_ok_intro hfns rfl⟩
    · rw [if_neg hm1]
      obtain ⟨s1, hs1⟩ := hsep (roles.getD i (∅, ∅)) (W.getD i ∅ \ W.getD j ∅)
      obtain ⟨s2, hs2⟩ := hsep (roles.getD j (∅, ∅)) (W.getD j ∅ \ W.getD i ∅)
      exact ⟨_, bind_ok_intro hs1 (bind_ok_intro hs2 rfl)⟩

/-- C9 amended.  Role functions absent from `reads` are skipped in
`dataR`, and functions absent from `writes` are skipped in `dataW` — those
missing entries behave as empty sets.  But a role function present in
`writes` and absent from `reads`, or any function of `writes` absent from
`reads2`, raises a `KeyError`; derivation is guaranteed to return a policy
set exactly when every `writes` function also lies in `reads2` and every
role function in `writes` also lies in `reads`. -/
theorem deriverOkOnClosedDomains (reads reads2 writes : RWMap)
    (roles : List Role)
    (h2 : ∀ f ∈ writes.dom, f ∈ reads2.dom)
    (h1 : ∀ r ∈ roles, ∀ f ∈ r.2, f ∈ writes.dom → f ∈ reads.dom) :
    ∃ ps, createInformationSecurityPolicy reads reads2 writes roles = .ok ps := by
  obtain ⟨dataW, hW⟩ := mapM_ok_exists _ roles fun r hr =>
    roleWrites_ok_of (h1 r hr)
  obtain ⟨pss, hpss⟩ := mapM_ok_exists _ (pairList roles.length) fun pr _ =>
    pairPolicies_ok_of_total h2 roles (dedupPass dataW) pr.1 pr.2
  refine ⟨pss.foldl (· ∪ ·) ∅, ?_⟩
  unfold createInformationSecurityPolicy
  exact bind_ok_intro hW (bind_ok_intro hpss rfl)

/-- Witness for C9: derivation succeeds on the closed-domain fixture. -/
theorem deriverOkOnClosedDomains_witness :
    ∃ ps, createInformationSecurityPolicy readsFix readsFix writesFix
      rolesFix = .ok ps :=
  deriverOkOnClosedDomains readsFix readsFix writesFix rolesFix
    (by decide) (by decide)

theorem getD_set_self {α : Type} {l : List α} {i : ℕ} {a d : α}
    (h : i < l.length) : (l.set i a).getD i d = a := by
  rw [List.getD_eq_getElem?_getD, List.getElem?_set_self',
    List.getElem?_eq_getElem h]
  rfl

theorem getD_set_ne {α : Type} {l : List α} {i k : ℕ} (h : i ≠ k) {a d : α} :
    (l.set i a).getD k d = l.getD k d := by
  rw [List.getD_eq_getElem?_getD, List.getElem?_set_ne h,
    ← List.getD_eq_getElem?_getD]

theorem subset_unionList {α : Type} [DecidableEq α] {s : Finset α} :
    ∀ {l : List (Finset α)}, s ∈ l → s ⊆ unionList l := by
  intro l
  induction l with
  | nil => intro h; cases h
  | cons t l ih =>
    intro h
    rcases List.mem_cons.mp h with rfl | h
    · exact Finset.subset_union_left
    · exact subset_trans (ih h) Finset.subset_union_right

theorem disjoint_unionList {α : Type} [DecidableEq α] {a : Finset α} :
    ∀ {l : List (Finset α)}, (∀ s ∈ l, Disjoint a s) →
      Disjoint a (unionList l) := by
  intro l
  induction l with
  | nil => intro _; exact Finset.disjoint_empty_right a
  | cons t l ih =>
    intro h
    show Disjoint a (t ∪ unionList l)
    rw [Finset.disjoint_union_right]
    exact ⟨h t (List.mem_cons_self t l),
      ih fun s hs => h s (List.mem_cons_of_mem t hs)⟩

theorem unionList_cons {α : Type} [DecidableEq α] (a : Finset α)
    (l : List (Finset α)) : unionList (a :: l) = a ∪ unionList l := rfl

theorem foldl_sdiff {α : Type} [DecidableEq α] (g : ℕ → Finset α)
    (p : ℕ → Prop) [DecidablePred p] :
    ∀ (l : List ℕ) (s : Finset α),
      l.foldl (fun t j => if p j then t \ g j else t) s =
        s \ unionList ((l.filter fun j => p j).map g) := by
  intro l
  induction l with
  | nil => intro s; simp [unionList]
  | cons j l ih =>
    intro s
    rw [List.foldl_cons, ih, List.filter_cons]
    by_cases hp : p j
    · rw [if_pos hp, if_pos (by simpa using hp), List.map_cons, unionList_cons]
      ext x
      simp only [Finset.mem_sdiff, Finset.mem_union]
      tauto
    · rw [if_neg hp, if_neg (by simpa using hp)]

theorem mem_buildRoleHierarchy {roles : List BRole} {i j : ℕ} :
    (i, j) ∈ buildRoleHierarchy roles ↔
      i < roles.length ∧ j < roles.length ∧ i ≠ j ∧
        (roles.getD i (∅, ∅)).1 ⊆ (roles.getD j (∅, ∅)).1 := by
  unfold buildRoleHierarchy
  rw [Finset.mem_filter, Finset.mem_product, Finset.mem_range, Finset.mem_range]
  tauto

theorem trimFuncs_eq (st : RState) (i : ℕ) :
    trimFuncs st i = (st.roles.getD i (∅, ∅)).2 \
      unionList (((List.range st.roles.length).filter
        fun j => (i, j) ∈ st.H).map fun j => (st.roles.getD j (∅, ∅)).2) := by
  unfold trimFuncs
  exact foldl_sdiff _ _ _ _

theorem rowClear_mono {H H' : Finset (ℕ × ℕ)} {k : ℕ} (hsub : H' ⊆ H)
    (h : rowClear H k) : rowClear H' k :=
  fun q hq => h q (hsub hq)

theorem clearRow_subset (i : ℕ) (H : Finset (ℕ × ℕ)) : clearRow i H ⊆ H :=
  Finset.filter_subset _ _

theorem rowClear_clearRow (i : ℕ) (H : Finset (ℕ × ℕ)) :
    rowClear (clearRow i H) i :=
  fun _ hp => (Finset.mem_filter.mp hp).2

theorem mem_clearRow {i : ℕ} {H : Finset (ℕ × ℕ)} {p : ℕ × ℕ} :
    p ∈ clearRow i H ↔ p ∈ H ∧ p.1 ≠ i := Finset.mem_filter

theorem rowClear_of_clearRow_ne {i k : ℕ} {H : Finset (ℕ × ℕ)} (hik : k ≠ i)
    (h : rowClear (clearRow i H) k) : rowClear H k := by
  intro p hp hpk
  exact h p (mem_clearRow.mpr ⟨hp, by rw [hpk]; exact hik⟩) hpk

theorem rowOrig_clearRow {R0 : List BRole} {i k : ℕ} {H : Finset (ℕ × ℕ)}
    (hik : k ≠ i) (h : rowOrig R0 H k) : rowOrig R0 (clearRow i H) k := by
  intro p hp hpk
  exact mem_clearRow.mpr ⟨h p hp hpk, by rw [hpk]; exact hik⟩

theorem parentsCard_pos {st : RState} {i : ℕ} (h : 0 < parentsCard st i) :
    ∃ j, (i, j) ∈ st.H := by
  obtain ⟨p, hp⟩ := Finset.card_pos.mp h
  have hm := Finset.mem_filter.mp hp
  exact ⟨p.2, by
    have : p = (i, p.2) := by
      rw [← hm.2]
    rw [← this]
    exact hm.1⟩

theorem parentsCard_zero {st : RState} {i : ℕ} (h : parentsCard st i = 0) :
    rowClear st.H i := by
  intro p hp hpi
  have hmem : p ∈ st.H.filter fun q => q.1 = i := Finset.mem_filter.mpr ⟨hp, hpi⟩
  have hpos : 0 < parentsCard st i := Finset.card_pos.mpr ⟨p, hmem⟩
  omega

theorem childrenCard_zero {st : RState} {i : ℕ} (h : childrenCard st i = 0) :
    ∀ x, (x, i) ∉ st.H := by
  intro x hx
  have hmem : (x, i) ∈ st.H.filter fun q => q.2 = i :=
    Finset.mem_filter.mpr ⟨hx, rfl⟩
  have hpos : 0 < childrenCard st i := Finset.card_pos.mpr ⟨_, hmem⟩
  omega

theorem RStep.rfl' (st : RState) : RStep st st :=
  ⟨rfl, fun _ => rfl, fun _ => subset_rfl, subset_rfl, fun _ h => h⟩

theorem RStep.trans' {s1 s2 s3 : RState} (h1 : RStep s1 s2) (h2 : RStep s2 s3) :
    RStep s1 s3 :=
  ⟨h2.len.trans h1.len,
   fun k => (h2.users k).trans (h1.users k),
   fun k => subset_trans (h2.funcs k) (h1.funcs k),
   subset_trans h2.hsub h1.hsub,
   fun x hx => h2.rem x (h1.rem x hx)⟩

theorem obind_some_elim {α β : Type} {a : Option α} {f : α → Option β} {b : β}
    (h : (a >>= f) = some b) : ∃ x, a = some x ∧ f x = some b := by
  cases a with
  | none => exact Option.noConfusion (show none = some b from h)
  | some x => exact ⟨x, rfl, h⟩

theorem childFold_none (step : ℕ → RState → Option RState) (i : ℕ) :
    ∀ js : List ℕ, childFold step i js none = none := by
  intro js
  induction js with
  | nil => rfl
  | cons j js ih => exact ih

theorem getD_mem {α : Type} {l : List α} {k : ℕ} {d : α} (h : k < l.length) :
    l.getD k d ∈ l := by
  rw [List.getD_eq_getElem _ _ h]
  exact List.getElem_mem h

theorem finishNode_inv {R0 : List BRole} {st : RState} {i : ℕ}
    {u s1 : Finset ℕ}
    (hinv : RInv R0 st)
    (hi : i < R0.length)
    (hne0 : rowNonempty0 R0 i)
    (hu : u = (R0.getD i (∅, ∅)).1)
    (hs1 : s1 ⊆ (R0.getD i (∅, ∅)).2)
    (hdisj : ∀ j, (i, j) ∈ buildRoleHierarchy R0 →
      Disjoint s1 (R0.getD j (∅, ∅)).2)
    (hnochild : ∀ x, (x, i) ∉ st.H) :
    RInv R0 (finishNode st i u s1) ∧
    rowClear (finishNode st i u s1).H i ∧
    (finishNode st i u s1).H ⊆ st.H ∧
    (∀ x ∈ st.removes, x ∈ (finishNode st i u s1).removes) ∧
    (finishNode st i u s1).roles.length = st.roles.length ∧
    (∀ k, k ≠ i →
      (finishNode st i u s1).roles.getD k (∅, ∅) = st.roles.getD k (∅, ∅)) ∧
    ((finishNode st i u s1).roles.getD i (∅, ∅)).2 ⊆
      s1 ∪ (st.roles.getD i (∅, ∅)).2 := by
  have hi' : i < st.roles.length := by rw [hinv.len]; exact hi
  unfold finishNode
  by_cases hE : s1 = ∅
  · rw [if_pos hE]
    refine ⟨?_, rowClear_clearRow i st.H, clearRow_subset i st.H,
      fun x hx => List.mem_append_left _ hx, rfl, fun k _ => rfl,
      Finset.subset_union_right⟩
    refine ⟨hinv.len, hinv.users, hinv.funcs,
      subset_trans (clearRow_subset i st.H) hinv.hsub, ?_, ?_,
      hinv.untouched, ?_⟩
    · intro k
      by_cases hk : k = i
      · subst hk
        exact Or.inr (rowClear_clearRow k st.H)
      · rcases hinv.rows k with hro | hrc
        · exact Or.inl (rowOrig_clearRow hk hro)
        · exact Or.inr (rowClear_mono (clearRow_subset i st.H) hrc)
    · intro k hclear hk0
      by_cases hk : k = i
      · subst hk
        exact Or.inl (List.mem_append_right _ (List.mem_singleton_self k))
      · rcases hinv.processed k (rowClear_of_clearRow_ne hk hclear) hk0 with
          hrem | hkeep
        · exact Or.inl (List.mem_append_left _ hrem)
        · exact Or.inr hkeep
    · intro p hp
      exact hinv.parentsOrig p (clearRow_subset i st.H hp)
  · rw [if_neg hE]
    have gi : (st.roles.set i (u, s1)).getD i (∅, ∅) = (u, s1) :=
      getD_set_self hi'
    have gk : ∀ k, k ≠ i →
        (st.roles.set i (u, s1)).getD k (∅, ∅) = st.roles.getD k (∅, ∅) :=
      fun k hk => getD_set_ne (Ne.symm hk)
    refine ⟨?_, rowClear_clearRow i st.H, clearRow_subset i st.H,
      fun x hx => hx, ?_, gk, ?_⟩
    · refine ⟨?_, ?_, ?_, subset_trans (clearRow_subset i st.H) hinv.hsub,
        ?_, ?_, ?_, ?_⟩
      · show (st.roles.set i (u, s1)).length = R0.length
        rw [List.length_set, hinv.len]
      · intro k
        by_cases hk : k = i
        · subst hk
          rw [gi, hu]
        · rw [gk k hk]
          exact hinv.users k
      · intro k
        by_cases hk : k = i
        · subst hk
          rw [gi]
          exact hs1
        · rw [gk k hk]
          exact hinv.funcs k
      · intro k
        by_cases hk : k = i
        · subst hk
          exact Or.inr (rowClear_clearRow k st.H)
        · rcases hinv.rows k with hro | hrc
          · exact Or.inl (rowOrig_clearRow hk hro)
          · exact Or.inr (rowClear_mono (clearRow_subset i st.H) hrc)
      · intro k hclear hk0
        by_cases hk : k = i
        · subst hk
          refine Or.inr ⟨?_, ?_⟩
          · rw [gi]
            exact hE
          · intro j hj
            rw [gi]
            exact hdisj j hj
        · rcases hinv.processed k (rowClear_of_clearRow_ne hk hclear) hk0 with
            hrem | ⟨hne2, hd⟩
          · exact Or.inl hrem
          · refine Or.inr ⟨?_, ?_⟩
            · rw [gk k hk]
              exact hne2
            · intro j hj
              rw [gk k hk]
              exact hd j hj
      · intro k hk0
        have hk : k ≠ i := by
          intro hk
          subst hk
          exact hk0 hne0
        rw [gk k hk]
        exact hinv.untouched k hk0
      · intro p hp
        have hpH := (mem_clearRow.mp hp).1
        have hp2 : p.2 ≠ i := by
          intro hp2
          apply hnochild p.1
          have : p = (p.1, i) := by
            rw [← hp2]
          rw [← this]
          exact hpH
        rw [gk p.2 hp2]
        exact hinv.parentsOrig p hpH
    · show (st.roles.set i (u, s1)).length = st.roles.length
      rw [List.length_set]
    · rw [gi]
      exact Finset.subset_union_left

theorem childFold_spec (R0 : List BRole) (step : ℕ → RState → Option RState)
    (i : ℕ)
    (hstep : ∀ j st st', step j st = some st' → RInv R0 st →
      RInv R0 st' ∧ RStep st st' ∧ rowClear st'.H j) :
    ∀ (js : List ℕ) (st st' : RState),
      childFold step i js (some st) = some st' → RInv R0 st →
      RInv R0 st' ∧ RStep st st' ∧ ∀ j ∈ js, (j, i) ∉ st'.H := by
  intro js
  induction js with
  | nil =>
    intro st st' h hinv
    cases h
    exact ⟨hinv, RStep.rfl' st, fun j hj => absurd hj (List.not_mem_nil j)⟩
  | cons j js ih =>
    intro st st' h hinv
    rw [show childFold step i (j :: js) (some st) =
        childFold step i js
          (if (j, i) ∈ st.H then step j st else some st) from rfl] at h
    by_cases hlive : (j, i) ∈ st.H
    · rw [if_pos hlive] at h
      cases hst : step j st with
      | none =>
        rw [hst, childFold_none] at h
        cases h
      | some s2 =>
        rw [hst] at h
        obtain ⟨hinv2, hstep2, hclear2⟩ := hstep j st s2 hst hinv
        obtain ⟨hinvF, hstepF, hnotin⟩ := ih s2 st' h hinv2
        refine ⟨hinvF, RStep.trans' hstep2 hstepF, ?_⟩
        intro x hx
        rcases List.mem_cons.mp hx with rfl | hx'
        · intro hmem
          exact hclear2 (x, i) (hstepF.hsub hmem) rfl
        · exact hnotin x hx'
    · rw [if_neg hlive] at h
      obtain ⟨hinvF, hstepF, hnotin⟩ := ih st st' h hinv
      refine ⟨hinvF, hstepF, ?_⟩
      intro x hx
      rcases List.mem_cons.mp hx with rfl | hx'
      · intro hmem
        exact hlive (hstepF.hsub hmem)
      · exact hnotin x hx'

theorem trim_facts {R0 : List BRole} {st : RState} {i : ℕ}
    (hinv : RInv R0 st) (hpc : 0 < parentsCard st i) :
    i < R0.length ∧ rowNonempty0 R0 i ∧
    trimFuncs st i ⊆ (st.roles.getD i (∅, ∅)).2 ∧
    trimFuncs st i ⊆ (R0.getD i (∅, ∅)).2 ∧
    (st.roles.getD i (∅, ∅)).1 = (R0.getD i (∅, ∅)).1 ∧
    ∀ j, (i, j) ∈ buildRoleHierarchy R0 →
      Disjoint (trimFuncs st i) (R0.getD j (∅, ∅)).2 := by
  obtain ⟨j0, hj0⟩ := parentsCard_pos hpc
  have hij0 : (i, j0) ∈ buildRoleHierarchy R0 := hinv.hsub hj0
  have hi : i < R0.length := (mem_buildRoleHierarchy.mp hij0).1
  have hne0 : rowNonempty0 R0 i := ⟨(i, j0), hij0, rfl⟩
  have horig : rowOrig R0 st.H i := by
    rcases hinv.rows i with hr | hr
    · exact hr
    · exact absurd rfl (hr (i, j0) hj0)
  have hs1sub : trimFuncs st i ⊆ (st.roles.getD i (∅, ∅)).2 := by
    rw [trimFuncs_eq]
    exact Finset.sdiff_subset
  refine ⟨hi, hne0, hs1sub, subset_trans hs1sub (hinv.funcs i),
    hinv.users i, ?_⟩
  intro j hj
  have hjH : (i, j) ∈ st.H := horig (i, j) hj rfl
  have hjlt : j < st.roles.length := by
    have := (mem_buildRoleHierarchy.mp hj).2.1
    rw [hinv.len]
    exact this
  have hmemlist : (st.roles.getD j (∅, ∅)).2 ∈
      ((List.range st.roles.length).filter fun j' => (i, j') ∈ st.H).map
        fun j' => (st.roles.getD j' (∅, ∅)).2 :=
    List.mem_map.mpr ⟨j,
      List.mem_filter.mpr ⟨List.mem_range.mpr hjlt, by simpa using hjH⟩, rfl⟩
  have hd : Disjoint (trimFuncs st i) (st.roles.getD j (∅, ∅)).2 := by
    rw [trimFuncs_eq]
    exact Finset.disjoint_of_subset_right (subset_unionList hmemlist)
      Finset.sdiff_disjoint
  have hP : st.roles.getD j (∅, ∅) = R0.getD j (∅, ∅) :=
    hinv.parentsOrig (i, j) hjH
  rwa [hP] at hd

theorem dfs_spec (R0 : List BRole) :
    ∀ (fuel i : ℕ) (st st' : RState),
      dfsReduceRecursive fuel i st = some st' → RInv R0 st →
      RInv R0 st' ∧ RStep st st' ∧ rowClear st'.H i := by
  intro fuel
  induction fuel with
  | zero =>
    intro i st st' h _
    cases h
  | succ f ih =>
    intro i st st' h hinv
    rw [dfsReduceRecursive] at h
    split at h
    case isTrue hc =>
      cases h
      obtain ⟨hpc, hcc⟩ := hc
      obtain ⟨hi, hne0, hs1sub, hs1R0, hu, hdisjR0⟩ := trim_facts hinv hpc
      obtain ⟨hinv', hclear', hHsub', hrem', hlen', hunch', hfi'⟩ :=
        finishNode_inv hinv hi hne0 hu hs1R0 hdisjR0
          (childrenCard_zero hcc)
      refine ⟨hinv', ⟨hlen', ?_, ?_, hHsub', hrem'⟩, hclear'⟩
      · intro k
        rw [hinv'.users k, hinv.users k]
      · intro k
        by_cases hk : k = i
        · subst hk
          exact subset_trans hfi'
            (Finset.union_subset hs1sub subset_rfl)
        · rw [hunch' k hk]
    case isFalse hnc =>
      split at h
      case isTrue hc2 =>
        obtain ⟨hpc0, _⟩ := hc2
        have hrc : rowClear st.H i := parentsCard_zero hpc0
        obtain ⟨hinvF, hstepF, _⟩ :=
          childFold_spec R0 _ i (fun j s s' hs hi2 => ih j s s' hs hi2)
            _ st st' h hinv
        exact ⟨hinvF, hstepF, rowClear_mono hstepF.hsub hrc⟩
      case isFalse hnc2 =>
        split at h
        case isTrue hc3 =>
          obtain ⟨hpc, _⟩ := hc3
          cases hcf : childFold (fun j s => dfsReduceRecursive f j s) i
              (List.range st.roles.length) (some st) with
          | none =>
            rw [hcf] at h
            cases h
          | some st2 =>
            rw [hcf] at h
            cases h
            obtain ⟨hi, hne0, hs1sub, hs1R0, hu, hdisjR0⟩ := trim_facts hinv hpc
            obtain ⟨hinv2, hstep2, hnochild2⟩ :=
              childFold_spec R0 _ i (fun j s s' hs hi2 => ih j s s' hs hi2)
                _ st st2 hcf hinv
            have hnochild : ∀ x, (x, i) ∉ st2.H := by
              intro x hx
              have hx0 := hinv2.hsub hx
              have hxlt : x < st.roles.length := by
                have := (mem_buildRoleHierarchy.mp hx0).1
                rw [hinv.len]
                exact this
              exact hnochild2 x (List.mem_range.mpr hxlt) hx
            obtain ⟨hinv', hclear', hHsub', hrem', hlen', hunch', hfi'⟩ :=
              finishNode_inv hinv2 hi hne0 hu hs1R0 hdisjR0 hnochild
            refine ⟨hinv', ⟨?_, ?_, ?_, ?_, ?_⟩, hclear'⟩
            · rw [hlen', hstep2.len]
            · intro k
              rw [hinv'.users k, hinv.users k]
            · intro k
              by_cases hk : k = i
              · subst hk
                refine subset_trans hfi' (Finset.union_subset hs1sub ?_)
                exact hstep2.funcs k
              · rw [hunch' k hk]
                exact hstep2.funcs k
            · exact subset_trans hHsub' hstep2.hsub
            · intro x hx
              exact hrem' x (hstep2.rem x hx)
        case isFalse hnc3 =>
          cases h
          have hpz : parentsCard st i = 0 := by
            by_cases hp : 0 < parentsCard st i
            · by_cases hcz : childrenCard st i = 0
              · exact absurd ⟨hp, hcz⟩ hnc
              · exact absurd ⟨hp, by omega⟩ hnc3
            · omega
          exact ⟨hinv, RStep.rfl' st, parentsCard_zero hpz⟩

theorem foldl_bind_none (FUEL : ℕ) :
    ∀ js : List ℕ,
      js.foldl (fun acc i => acc.bind (dfsReduceRecursive FUEL i)) none =
        none := by
  intro js
  induction js with
  | nil => rfl
  | cons j js ih => exact ih

theorem topFold_spec (R0 : List BRole) (FUEL : ℕ) :
    ∀ (js : List ℕ) (st stF : RState),
      js.foldl (fun acc i => acc.bind (dfsReduceRecursive FUEL i)) (some st) =
        some stF →
      RInv R0 st →
      RInv R0 stF ∧ RStep st stF ∧ ∀ i ∈ js, rowClear stF.H i := by
  intro js
  induction js with
  | nil =>
    intro st stF h hinv
    cases h
    exact ⟨hinv, RStep.rfl' st, fun i hi => absurd hi (List.not_mem_nil i)⟩
  | cons i js ih =>
    intro st stF h hinv
    rw [List.foldl_cons,
      show (some st).bind (dfsReduceRecursive FUEL i) =
        dfsReduceRecursive FUEL i st from rfl] at h
    cases hd : dfsReduceRecursive FUEL i st with
    | none =>
      rw [hd, foldl_bind_none] at h
      cases h
    | some st1 =>
      rw [hd] at h
      obtain ⟨hinv1, hstep1, hclear1⟩ := dfs_spec R0 FUEL i st st1 hd hinv
      obtain ⟨hinvF, hstepF, hclearF⟩ := ih st1 stF h hinv1
      refine ⟨hinvF, RStep.trans' hstep1 hstepF, ?_⟩
      intro x hx
      rcases List.mem_cons.mp hx with rfl | hx'
      · exact rowClear_mono hstepF.hsub hclear1
      · exact hclearF x hx'

/-- C8.  For every input concept list whose concepts all have non-empty
user and function sets, whenever `ReduceMain` terminates, every surviving
basic role has a non-empty trimmed function set that is not contained in
the union of the function sets of its strict ancestors in the output
(concepts with strictly larger user sets); concepts whose function set is
emptied by the trimming are marked in `removes` and dropped from the
output. -/
theorem reducerCoverFree (roles out : List BRole)
    (hne : ∀ r ∈ roles, r.1 ≠ ∅ ∧ r.2 ≠ ∅)
    (h : ReduceMain roles = some out) :
    ∀ r ∈ out, r.2 ≠ ∅ ∧
      ¬ (r.2 ⊆ unionList
          ((out.filter fun r' => r.1 ⊂ r'.1).map fun r' => r'.2)) := by
  unfold ReduceMain at h
  rcases obind_some_elim h with ⟨stF, hfold, hout⟩
  cases hout
  have hinv0 : RInv roles ⟨roles, buildRoleHierarchy roles, []⟩ := by
    refine ⟨rfl, fun k => rfl, fun k => subset_rfl, subset_rfl,
      fun k => Or.inl (fun p hp _ => hp), ?_, fun k _ => rfl, fun p _ => rfl⟩
    intro k hclear hk0
    obtain ⟨p, hp, hpk⟩ := hk0
    exact absurd hpk (hclear p hp)
  obtain ⟨hinvF, _, hclear⟩ :=
    topFold_spec roles (roles.length + 1) _ _ _ hfold hinv0
  have hallclear : ∀ k, rowClear stF.H k := by
    intro k
    by_cases hk : k < roles.length
    · exact hclear k (List.mem_range.mpr hk)
    · intro p hp hpk
      have hp0 := hinvF.hsub hp
      have hlt : p.1 < roles.length := by
        have hpp : (p.1, p.2) ∈ buildRoleHierarchy roles := by
          rw [show (p.1, p.2) = p from rfl]
          exact hp0
        exact (mem_buildRoleHierarchy.mp hpp).1
      rw [hpk] at hlt
      exact hk hlt
  intro r hr
  rw [List.mem_filterMap] at hr
  obtain ⟨k, hkrange, hk⟩ := hr
  have hklt : k < stF.roles.length := List.mem_range.mp hkrange
  by_cases hkrem : k ∈ stF.removes
  · rw [if_pos hkrem] at hk
    cases hk
  · rw [if_neg hkrem] at hk
    cases hk
    have hklt0 : k < roles.length := by
      rw [hinvF.len] at hklt
      exact hklt
    have hfne : (stF.roles.getD k (∅, ∅)).2 ≠ ∅ := by
      by_cases hk0 : rowNonempty0 roles k
      · rcases hinvF.processed k (hallclear k) hk0 with hcontr | ⟨hne2, _⟩
        · exact absurd hcontr hkrem
        · exact hne2
      · rw [hinvF.untouched k hk0]
        exact (hne _ (getD_mem hklt0)).2
    refine ⟨hfne, ?_⟩
    have hdisjU : Disjoint (stF.roles.getD k (∅, ∅)).2
        (unionList
          ((((List.range stF.roles.length).filterMap fun i =>
              if i ∈ stF.removes then none
              else some (stF.roles.getD i (∅, ∅))).filter
            fun r' => (stF.roles.getD k (∅, ∅)).1 ⊂ r'.1).map
            fun r' => r'.2)) := by
      apply disjoint_unionList
      intro s hs
      rw [List.mem_map] at hs
      obtain ⟨r', hr'f, rfl⟩ := hs
      rw [List.mem_filter] at hr'f
      obtain ⟨hr'out, hss⟩ := hr'f
      have hss' : (stF.roles.getD k (∅, ∅)).1 ⊂ r'.1 := of_decide_eq_true hss
      rw [List.mem_filterMap] at hr'out
      obtain ⟨j, hjrange, hj⟩ := hr'out
      have hjlt : j < stF.roles.length := List.mem_range.mp hjrange
      by_cases hjrem : j ∈ stF.removes
      · rw [if_pos hjrem] at hj
        cases hj
      · rw [if_neg hjrem] at hj
        cases hj
        have hjlt0 : j < roles.length := by
          rw [hinvF.len] at hjlt
          exact hjlt
        have hkj : k ≠ j := by
          intro hkj
          rw [hkj] at hss'
          exact (ssubset_irrefl _) hss'
        have hH0 : (k, j) ∈ buildRoleHierarchy roles := by
          rw [mem_buildRoleHierarchy]
          refine ⟨hklt0, hjlt0, hkj, ?_⟩
          rw [← hinvF.users k, ← hinvF.users j]
          exact subset_of_ssubset hss'
        have hkne0 : rowNonempty0 roles k := ⟨(k, j), hH0, rfl⟩
        rcases hinvF.processed k (hallclear k) hkne0 with hcontr | ⟨_, hd⟩
        · exact absurd hcontr hkrem
        · exact Finset.disjoint_of_subset_right (hinvF.funcs j) (hd j hH0)
    intro hsubset
    obtain ⟨x, hx⟩ := Finset.nonempty_iff_ne_empty.mpr hfne
    exact (Finset.disjoint_left.mp hdisjU hx) (hsubset hx)

/-- Witness for C8: the reducer applied to the strict three-level
hierarchy `admin ⊋ operator ⊋ user` produces the delta-encoded roles
`[({0,1,2},{10}), ({0,1},{11}), ({0},{12})]`; the property instantiated at
the middle surviving role. -/
theorem reducerCoverFree_witness :
    (({0, 1}, {11}) : BRole).2 ≠ ∅ ∧
    ¬ ((({0, 1}, {11}) : BRole).2 ⊆ unionList
        ((([({0, 1, 2}, {10}), ({0, 1}, {11}), ({0}, {12})] :
            List BRole).filter
          fun r' => (({0, 1}, {11}) : BRole).1 ⊂ r'.1).map fun r' => r'.2)) :=
  reducerCoverFree [({0, 1, 2}, {10}), ({0, 1}, {10, 11}), ({0}, {10, 11, 12})]
    [({0, 1, 2}, {10}), ({0, 1}, {11}), ({0}, {12})]
    (by decide) (by decide) (({0, 1}, {11}) : BRole) (by decide)

end SpCon
